import Mathlib

/-!
Shallow embedding of the itsl-vscode extension core (src/extension.js):
the root locator (findProjectRoot), the manifest scanner (getProjects)
and the recency-ranked picker (pickProject), together with proofs of the
specified properties.

Modelling conventions:
* A directory is its path segments innermost first; `[]` is the filesystem
  root and `path.dirname` is `List.tail` (dirname of the root is the root).
* A manifest file on disk is either malformed (JSON.parse throws) or parsed
  into its `name` field (absent when not a string) and the key set of its
  `scripts` object (the schema the code consumes: only key presence matters).
* Strings are Lean `String`; string primitives used by the code
  (`startsWith`, `replace` of the first occurrence, falsiness of the empty
  string) are modelled on the underlying character list.
* `localeCompare` ordering is host/locale behaviour, abstracted as a
  comparator parameter `le`; the JS stable comparator sort is modelled by a
  stable insertion sort driven by that comparator.
* The interactive picker and the persisted workspace state are external
  capabilities: the chooser is a parameter `choose`, and the persisted
  history is threaded as an explicit argument and result.
-/

/-- Marker name identifying the monorepo root (`PROJECT_NAME` in the source). -/
def PROJECT_NAME : String := "itslearning-ui"

/-- Reserved namespace of eligible packages (`ITSL_PREFIX` in the source). -/
def ITSL_PREFIX : String := "@its-ui/"

/-- Key under which the recency history is persisted (`RECENT_KEY` in the source). -/
def RECENT_KEY : String := "itsl.recentProjects"

/-- A directory: path segments, innermost first; `[]` is the filesystem root. -/
abbrev Dir := List String

/-- State of a `package.json` file: unparseable, or parsed into its declared
name (none when missing) and the key set of its `scripts` object. -/
inductive ManifestFile where
  | malformed : ManifestFile
  | parsed : Option String → Option (List String) → ManifestFile
deriving DecidableEq

/-- One step of the walk in findProjectRoot: the directory holds a manifest
that exists, parses, and declares `name === PROJECT_NAME`. -/
def checkDir (fs : Dir → Option ManifestFile) (d : Dir) : Bool :=
  match fs d with
  | some (.parsed (some n) _) => n == PROJECT_NAME
  | _ => false

/-- The walk of `findProjectRoot`: check the current directory, then move to
the parent; stop with `none` when the parent equals the directory (root). -/
def findProjectRoot (fs : Dir → Option ManifestFile) : Dir → Option Dir
  | [] => if checkDir fs [] then some [] else none
  | s :: rest => if checkDir fs (s :: rest) then some (s :: rest) else findProjectRoot fs rest

/-- Replaces a malformed manifest by a missing one, leaving the rest alone. -/
def demoteMalformed : Option ManifestFile → Option ManifestFile
  | some .malformed => none
  | m => m

/-- A `package.json` found on disk under the root: the directory that holds
it (relative segments, outermost first here is irrelevant — only segment
membership matters for exclusion) and its content. -/
structure FsEntry where
  dirPath : List String
  content : ManifestFile
deriving DecidableEq

/-- The glob ignore patterns of getProjects: a path is excluded when some
directory segment is the dependency cache or the build output directory. -/
def excludedPath (p : List String) : Bool :=
  p.any fun seg => seg == "node_modules" || seg == "dist"

/-- The record getProjects emits per eligible manifest. -/
structure ProjectInfo where
  packageName : String
  hasBuildScript : Bool
deriving DecidableEq

/-- The check `!!(packageData.scripts && 'build' in packageData.scripts)`. -/
def hasBuildOf : Option (List String) → Bool
  | none => false
  | some keys => keys.contains "build"

/-- The per-file body of the getProjects loop: skip on parse failure, skip a
missing, empty or non-prefixed name, otherwise emit the record. -/
def projectOf (f : FsEntry) : Option ProjectInfo :=
  match f.content with
  | .malformed => none
  | .parsed none _ => none
  | .parsed (some packageName) scripts =>
    if packageName.data.isEmpty || !(ITSL_PREFIX.data.isPrefixOf packageName.data) then none
    else some ⟨packageName, hasBuildOf scripts⟩

/-- getProjects: glob all `package.json` files outside the ignored subtrees,
then keep one record per manifest that parses to a prefixed name. -/
def getProjects (files : List FsEntry) : List ProjectInfo :=
  (files.filter fun f => !excludedPath f.dirPath).filterMap projectOf

/-- The name a manifest declares, when it parses and has one. -/
def declaredName : ManifestFile → Option String
  | .malformed => none
  | .parsed name _ => name

/-- JS `String.prototype.replace` with a plain-string pattern: replace the
first occurrence of `pat` by `rep`, leave the string unchanged otherwise. -/
def replaceFirstL (pat rep : List Char) : List Char → List Char
  | [] => if pat.isPrefixOf ([] : List Char) then rep else []
  | c :: cs =>
    if pat.isPrefixOf (c :: cs) then rep ++ (c :: cs).drop pat.length
    else c :: replaceFirstL pat rep cs

/-- The short name computed in pickProject: `packageName.replace(ITSL_PREFIX, '')`. -/
def shortNameOf (n : String) : String := ⟨replaceFirstL ITSL_PREFIX.data [] n.data⟩

/-- A project as pickProject presents it: full package name plus short name. -/
structure SortedProject where
  packageName : String
  shortName : String
deriving DecidableEq

/-- Stable insertion of one element for the comparator sort. -/
def sortInsert (le : SortedProject → SortedProject → Bool) (a : SortedProject) :
    List SortedProject → List SortedProject
  | [] => [a]
  | b :: bs => if le a b then a :: b :: bs else b :: sortInsert le a bs

/-- The `.map(...).sort((a, b) => a.shortName.localeCompare(b.shortName))`
pipeline of pickProject; the locale order is host behaviour abstracted as `le`. -/
def sortProjects (le : String → String → Bool) (projects : List ProjectInfo) :
    List SortedProject :=
  (projects.map fun p => ⟨p.packageName, shortNameOf p.packageName⟩).foldr
    (sortInsert fun a b => le a.shortName b.shortName) []

/-- A quick-pick item; separator items carry no description. -/
structure Item where
  label : String
  description : Option String
  separator : Bool
deriving DecidableEq

/-- The selectable item built for a project: label is the short name, the
description the full package name. -/
def mkItem (p : SortedProject) : Item := ⟨p.shortName, some p.packageName, false⟩

/-- The `recentKeys.map(name => sorted.find(...)).filter(Boolean)` pipeline:
resolve each history entry against the sorted list, dropping misses. -/
def recentItemsOf (sorted : List SortedProject) (recentKeys : List String) :
    List SortedProject :=
  (recentKeys.map fun name => sorted.find? fun p => p.packageName == name).filterMap id

/-- The item list pickProject presents: when any history entry resolved, a
Recent separator, the resolved entries, an All-projects separator; then
always the complete sorted list. -/
def buildItems (sorted recentItems : List SortedProject) : List Item :=
  (if recentItems.length > 0 then
    ⟨"Recent", none, true⟩ :: recentItems.map mkItem ++ [⟨"All projects", none, true⟩]
  else []) ++ sorted.map mkItem

/-- The presentation list of pickProject for given inputs. -/
def presentationItems (le : String → String → Bool) (projects : List ProjectInfo)
    (recentKeys : List String) : List Item :=
  buildItems (sortProjects le projects) (recentItemsOf (sortProjects le projects) recentKeys)

/-- The history update on a successful selection:
`[packageName, ...recentKeys.filter(n => n !== packageName)].slice(0, 3)`. -/
def updatedRecent (packageName : String) (recentKeys : List String) : List String :=
  (packageName :: recentKeys.filter fun n => n != packageName).take 3

/-- pickProject as a pure function: the chooser (the quick-pick UI) and the
persisted history are explicit. Returns the selection outcome and the
history as stored afterwards. A separator item carries no description and
the host picker never returns one; the `getD` default is unreachable under
that contract. -/
def pickProject (le : String → String → Bool) (projects : List ProjectInfo)
    (recentKeys : List String) (choose : List Item → Option Item) :
    Option SortedProject × List String :=
  match choose (presentationItems le projects recentKeys) with
  | none => (none, recentKeys)
  | some picked =>
    (some ⟨(picked.description).getD "", picked.label⟩,
      updatedRecent ((picked.description).getD "") recentKeys)

/-- Example filesystem for the root-locator walk: a marker manifest at
`/repo`, nothing at `/repo/packages`, a malformed manifest at
`/repo/packages/core`. -/
def exFS : Dir → Option ManifestFile
  | [] => some (.parsed (some "other") none)
  | ["repo"] => some (.parsed (some "itslearning-ui") none)
  | ["core", "packages", "repo"] => some .malformed
  | _ => none

/-- Example manifest set with two distinct files declaring the same name. -/
def exDupFiles : List FsEntry :=
  [⟨["packages", "a"], .parsed (some "@its-ui/x") none⟩,
   ⟨["packages", "b"], .parsed (some "@its-ui/x") (some ["build"])⟩]

/-- Example manifest set: one eligible buildable package, one eligible
non-buildable package, the root marker, and an eligible name hidden inside
the dependency cache. -/
def exScanFiles : List FsEntry :=
  [⟨[], .parsed (some "itslearning-ui") none⟩,
   ⟨["packages", "core"], .parsed (some "@its-ui/core") (some ["build", "test"])⟩,
   ⟨["packages", "widgets"], .parsed (some "@its-ui/widgets") (some ["test"])⟩,
   ⟨["node_modules", "dep"], .parsed (some "@its-ui/hidden") (some ["build"])⟩]

/-- Example project list for picker witnesses. -/
def exProjects : List ProjectInfo :=
  [⟨"@its-ui/core", true⟩, ⟨"@its-ui/widgets", false⟩]

/-- Concrete comparator for witnesses (codepoint order on the data lists). -/
def exLe (a b : String) : Bool := a.data ≤ b.data

/-- Concrete chooser for witnesses: pick the first selectable item. -/
def exChoose (items : List Item) : Option Item :=
  items.find? fun it => !it.separator

/-! Helper lemmas about the root-locator walk. -/

theorem checkDir_demote (fs : Dir → Option ManifestFile) (a : Dir) :
    checkDir (fun x => demoteMalformed (fs x)) a = checkDir fs a := by
  simp only [checkDir]
  cases h : fs a with
  | none => rfl
  | some m =>
    cases m with
    | malformed => rfl
    | parsed name scripts => cases name <;> rfl

theorem fpr_none_iff (fs : Dir → Option ManifestFile) (d : Dir) :
    findProjectRoot fs d = none ↔ ∀ a, a <:+ d → checkDir fs a = false := by
  induction d with
  | nil =>
    simp only [findProjectRoot]
    constructor
    · intro h a ha
      rw [List.suffix_nil] at ha
      subst ha
      cases hc : checkDir fs [] with
      | false => rfl
      | true => rw [hc] at h; simp at h
    · intro h
      rw [h [] List.suffix_rfl]
      simp
  | cons s rest ih =>
    simp only [findProjectRoot]
    cases hc : checkDir fs (s :: rest) with
    | true =>
      simp only [if_true]
      constructor
      · intro h; simp at h
      · intro h
        have hcon := h (s :: rest) List.suffix_rfl
        rw [hc] at hcon
        simp at hcon
    | false =>
      rw [if_neg Bool.false_ne_true]
      rw [ih]
      constructor
      · intro h a ha
        rcases List.suffix_cons_iff.mp ha with h1 | h2
        · subst h1; exact hc
        · exact h a h2
      · intro h a ha
        exact h a (ha.trans (List.suffix_cons s rest))

theorem fpr_some_spec (fs : Dir → Option ManifestFile) (d : Dir) (r : Dir)
    (h : findProjectRoot fs d = some r) :
    r <:+ d ∧ checkDir fs r = true ∧
      ∀ a, a <:+ d → r <:+ a → a ≠ r → checkDir fs a = false := by
  induction d with
  | nil =>
    simp only [findProjectRoot] at h
    cases hc : checkDir fs [] with
    | false => rw [hc] at h; simp at h
    | true =>
      rw [hc] at h
      simp only [if_true, Option.some.injEq] at h
      subst h
      refine ⟨List.suffix_rfl, hc, ?_⟩
      intro a ha hra hne
      rw [List.suffix_nil] at ha
      exact absurd ha hne
  | cons s rest ih =>
    simp only [findProjectRoot] at h
    cases hc : checkDir fs (s :: rest) with
    | true =>
      rw [hc] at h
      simp only [if_true, Option.some.injEq] at h
      subst h
      refine ⟨List.suffix_rfl, hc, ?_⟩
      intro a ha hra hne
      exact absurd (ha.eq_of_length (Nat.le_antisymm ha.length_le hra.length_le)) hne
    | false =>
      rw [hc] at h
      rw [if_neg Bool.false_ne_true] at h
      obtain ⟨h1, h2, h3⟩ := ih h
      refine ⟨h1.trans (List.suffix_cons s rest), h2, ?_⟩
      intro a ha hra hne
      rcases List.suffix_cons_iff.mp ha with hcase | hcase
      · subst hcase; exact hc
      · exact h3 a hcase hra hne

theorem fpr_congr (fs1 fs2 : Dir → Option ManifestFile)
    (h : ∀ a : Dir, checkDir fs1 a = checkDir fs2 a) (d : Dir) :
    findProjectRoot fs1 d = findProjectRoot fs2 d := by
  induction d with
  | nil => simp only [findProjectRoot, h]
  | cons s rest ih => simp only [findProjectRoot, h, ih]

/-- C2: started from any directory, the walk of findProjectRoot returns the
nearest ancestor-or-self directory whose manifest parses and declares the
marker name, and returns none exactly when no ancestor up to the filesystem
root does; ancestors of a directory are its path suffixes, and the walk
stops at the root, whose parent is itself. -/
theorem findProjectRoot_locates_nearest_marker (fs : Dir → Option ManifestFile) (d : Dir) :
    (findProjectRoot fs d = none ↔ ∀ a, a <:+ d → checkDir fs a = false) ∧
    (∀ r, findProjectRoot fs d = some r →
      r <:+ d ∧ checkDir fs r = true ∧
      ∀ a, a <:+ d → r <:+ a → a ≠ r → checkDir fs a = false) :=
  ⟨fpr_none_iff fs d, fun r h => fpr_some_spec fs d r h⟩

/-- Witness for C2 on a concrete tree: from /repo/packages/core/src the walk
finds the marker manifest at /repo, an ancestor with a valid marker. -/
theorem findProjectRoot_locates_nearest_marker_witness :
    ["repo"] <:+ ["src", "core", "packages", "repo"] ∧ checkDir exFS ["repo"] = true := by
  have h := (findProjectRoot_locates_nearest_marker exFS ["src", "core", "packages", "repo"]).2
    ["repo"] (by decide)
  exact ⟨h.1, h.2.1⟩

/-- C7: the walk treats a malformed manifest exactly like a missing one
(replacing every malformed manifest by a missing one never changes the
result), and a valid marker manifest at any ancestor guarantees the walk
succeeds, so a malformed manifest at some level never prevents discovery at
an ancestor and is never surfaced as an error. -/
theorem findProjectRoot_malformed_as_missing (fs : Dir → Option ManifestFile) (d : Dir) :
    findProjectRoot (fun x => demoteMalformed (fs x)) d = findProjectRoot fs d ∧
    (∀ a, a <:+ d → checkDir fs a = true → (findProjectRoot fs d).isSome = true) := by
  refine ⟨fpr_congr _ _ (fun a => checkDir_demote fs a) d, ?_⟩
  intro a ha hc
  cases hr : findProjectRoot fs d with
  | some r => rfl
  | none =>
    have hfalse := (fpr_none_iff fs d).mp hr a ha
    rw [hc] at hfalse
    exact absurd hfalse (by simp)

/-- Witness for C7: with a malformed manifest at /repo/packages/core and the
marker at /repo, demoting the malformed file changes nothing and the walk
from /repo/packages/core succeeds. -/
theorem findProjectRoot_malformed_as_missing_witness :
    findProjectRoot (fun x => demoteMalformed (exFS x)) ["core", "packages", "repo"] =
      findProjectRoot exFS ["core", "packages", "repo"] ∧
    (findProjectRoot exFS ["core", "packages", "repo"]).isSome = true := by
  have h := findProjectRoot_malformed_as_missing exFS ["core", "packages", "repo"]
  exact ⟨h.1, h.2 ["repo"] (by decide) (by decide)⟩

/-! Helper lemmas about discovery. -/

theorem mem_getProjects (files : List FsEntry) (p : ProjectInfo) :
    p ∈ getProjects files ↔
      ∃ f ∈ files, excludedPath f.dirPath = false ∧ projectOf f = some p := by
  simp only [getProjects, List.mem_filterMap, List.mem_filter, Bool.not_eq_true']
  constructor
  · rintro ⟨f, ⟨hf, hex⟩, hp⟩
    exact ⟨f, hf, hex, hp⟩
  · rintro ⟨f, hf, hex, hp⟩
    exact ⟨f, ⟨hf, hex⟩, hp⟩

theorem projectOf_eq_some (f : FsEntry) (p : ProjectInfo) (h : projectOf f = some p) :
    ITSL_PREFIX.data.isPrefixOf p.packageName.data = true ∧
      ∃ scripts, f.content = ManifestFile.parsed (some p.packageName) scripts ∧
        p.hasBuildScript = hasBuildOf scripts := by
  obtain ⟨dp, content⟩ := f
  cases content with
  | malformed => simp [projectOf] at h
  | parsed name scripts =>
    cases name with
    | none => simp [projectOf] at h
    | some packageName =>
      simp only [projectOf] at h
      split at h
      · exact absurd h (by simp)
      · rename_i hcond
        obtain rfl := Option.some.inj h
        simp only [Bool.or_eq_true, Bool.not_eq_true', not_or,
          Bool.not_eq_false] at hcond
        exact ⟨hcond.2, scripts, rfl, rfl⟩

/-- C6: every entry discovery returns carries the namespace as a name
prefix; every entry stems from a non-excluded manifest on disk that
declares that very name, with the buildable flag computed from its script
keys; declaring a build entry is exactly what sets the flag; and a name
declared only by manifests inside the dependency-cache or build-output
subtrees never appears in the result. -/
theorem getProjects_filters_and_excludes (files : List FsEntry) :
    (∀ p ∈ getProjects files, ITSL_PREFIX.data.isPrefixOf p.packageName.data = true) ∧
    (∀ p ∈ getProjects files, ∃ f ∈ files, excludedPath f.dirPath = false ∧
      ∃ scripts, f.content = ManifestFile.parsed (some p.packageName) scripts ∧
        p.hasBuildScript = hasBuildOf scripts) ∧
    (∀ scripts, hasBuildOf scripts = true ↔ ∃ keys, scripts = some keys ∧ "build" ∈ keys) ∧
    (∀ N, (∀ f ∈ files, declaredName f.content = some N → excludedPath f.dirPath = true) →
      ∀ p ∈ getProjects files, p.packageName ≠ N) := by
  refine ⟨?_, ?_, ?_, ?_⟩
  · intro p hp
    obtain ⟨f, hf, hex, hpf⟩ := (mem_getProjects files p).mp hp
    exact (projectOf_eq_some f p hpf).1
  · intro p hp
    obtain ⟨f, hf, hex, hpf⟩ := (mem_getProjects files p).mp hp
    exact ⟨f, hf, hex, (projectOf_eq_some f p hpf).2⟩
  · intro scripts
    cases scripts with
    | none => simp [hasBuildOf]
    | some keys =>
      simp only [hasBuildOf, List.contains, List.elem_iff, Option.some.injEq]
      constructor
      · intro hm; exact ⟨keys, rfl, hm⟩
      · rintro ⟨keys2, hk, hm⟩; rw [hk]; exact hm
  · intro N hN p hp hpN
    obtain ⟨f, hf, hex, hpf⟩ := (mem_getProjects files p).mp hp
    obtain ⟨-, scripts, hc, -⟩ := projectOf_eq_some f p hpf
    have hdecl : declaredName f.content = some N := by
      rw [hc, ← hpN]; rfl
    have hexcl := hN f hf hdecl
    rw [hexcl] at hex
    exact Bool.noConfusion hex

/-- Witness for C6 on a concrete manifest set: the discovered core package
is prefix-named, and the eligible name hidden inside node_modules is not
among the results. -/
theorem getProjects_filters_and_excludes_witness :
    ITSL_PREFIX.data.isPrefixOf ("@its-ui/core" : String).data = true ∧
    (⟨"@its-ui/core", true⟩ : ProjectInfo).packageName ≠ "@its-ui/hidden" := by
  have h := getProjects_filters_and_excludes exScanFiles
  exact ⟨h.1 ⟨"@its-ui/core", true⟩ (by decide),
    h.2.2.2 "@its-ui/hidden" (by decide) ⟨"@its-ui/core", true⟩ (by decide)⟩

/-- C1 counterexample: two distinct manifests declaring the same prefixed
name each produce an entry, so discovery can return two entries with the
same full name — it performs no deduplication. -/
theorem getProjects_duplicate_names_cex :
    ¬ ((getProjects exDupFiles).map ProjectInfo.packageName).Nodup := by decide

/-- C1 amended: discovery returns one entry per eligible manifest with no
deduplication, so it returns no two entries with the same full name
provided no two distinct eligible manifests on disk declare the same name
(as the data model assumes names unique within the root's namespace). -/
theorem getProjects_nodup_of_distinct_manifest_names (files : List FsEntry)
    (h : ((files.filter fun f => !excludedPath f.dirPath).filterMap
        (fun f => Option.map ProjectInfo.packageName (projectOf f))).Nodup) :
    ((getProjects files).map ProjectInfo.packageName).Nodup := by
  rw [getProjects, List.map_filterMap]
  exact h

/-- Witness for the amended C1 on a concrete manifest set with distinct
declared names. -/
theorem getProjects_nodup_of_distinct_manifest_names_witness :
    ((getProjects exScanFiles).map ProjectInfo.packageName).Nodup :=
  getProjects_nodup_of_distinct_manifest_names exScanFiles (by decide)

/-! Helper lemmas about the short-name computation. -/

theorem replaceFirstL_strips (pat rep s : List Char) (h : pat.isPrefixOf s = true) :
    replaceFirstL pat rep s = rep ++ s.drop pat.length := by
  cases s with
  | nil =>
    simp only [replaceFirstL, if_pos h, List.drop_nil, List.append_nil]
  | cons c cs =>
    simp only [replaceFirstL, if_pos h]

theorem shortNameOf_data_strips (n : String)
    (h : ITSL_PREFIX.data.isPrefixOf n.data = true) :
    (shortNameOf n).data = n.data.drop ITSL_PREFIX.data.length := by
  simp only [shortNameOf]
  rw [replaceFirstL_strips ITSL_PREFIX.data [] n.data h]
  rfl

/-- C5 counterexample: the manifest name consisting of the bare reserved
namespace passes the discovery filter (it is nonempty and prefixed), yet
its derived short name is the empty string — the invariant that shortName
is never empty fails on a system-produced EligibleProject. -/
theorem shortName_empty_cex :
    getProjects [⟨["p"], ManifestFile.parsed (some "@its-ui/") none⟩] =
      [⟨"@its-ui/", false⟩] ∧
    ITSL_PREFIX.data.isPrefixOf ("@its-ui/" : String).data = true ∧
    shortNameOf "@its-ui/" = "" ∧
    (sortProjects exLe (getProjects [⟨["p"], ManifestFile.parsed (some "@its-ui/") none⟩])).map
      SortedProject.shortName = [""] := by decide

/-- C5 amended: the short name is the full name with its leading reserved
prefix removed; it is nonempty whenever the full name strictly extends the
prefix, and it contains the prefix only when the remainder after the prefix
itself does. -/
theorem shortName_of_proper_prefixed_name (n : String)
    (h1 : ITSL_PREFIX.data.isPrefixOf n.data = true)
    (h2 : n ≠ ITSL_PREFIX)
    (h3 : ¬ ITSL_PREFIX.data <:+: n.data.drop ITSL_PREFIX.data.length) :
    (shortNameOf n).data = n.data.drop ITSL_PREFIX.data.length ∧
    shortNameOf n ≠ "" ∧ ¬ ITSL_PREFIX.data <:+: (shortNameOf n).data := by
  have hd := shortNameOf_data_strips n h1
  refine ⟨hd, ?_, ?_⟩
  · intro he
    have hdata : (shortNameOf n).data = [] := by rw [he]
    rw [hd] at hdata
    have hlen : n.data.length ≤ ITSL_PREFIX.data.length := List.drop_eq_nil_iff.mp hdata
    have hpre : ITSL_PREFIX.data <+: n.data := List.isPrefixOf_iff_prefix.mp h1
    have heq : ITSL_PREFIX.data = n.data := hpre.eq_of_length_le hlen
    apply h2
    cases n with
    | mk data => cases heq; rfl
  · rw [hd]
    exact h3

/-- Witness for the amended C5 at a concrete well-formed package name. -/
theorem shortName_of_proper_prefixed_name_witness :
    shortNameOf "@its-ui/core" ≠ "" ∧
    ¬ ITSL_PREFIX.data <:+: (shortNameOf "@its-ui/core").data := by
  have h := shortName_of_proper_prefixed_name "@its-ui/core" (by decide) (by decide) (by decide)
  exact ⟨h.2.1, h.2.2⟩

/-! Helper lemmas about the picker. -/

theorem mem_sortInsert (le : SortedProject → SortedProject → Bool) (a x : SortedProject)
    (l : List SortedProject) : x ∈ sortInsert le a l ↔ x = a ∨ x ∈ l := by
  induction l with
  | nil => simp [sortInsert]
  | cons b bs ih =>
    simp only [sortInsert]
    split
    · simp [List.mem_cons]
    · simp only [List.mem_cons, ih]
      tauto

theorem mem_sortProjects (le : String → String → Bool) (projects : List ProjectInfo)
    (q : SortedProject) (h : q ∈ sortProjects le projects) :
    ∃ p ∈ projects, q = ⟨p.packageName, shortNameOf p.packageName⟩ := by
  simp only [sortProjects] at h
  have hmem : ∀ l : List SortedProject,
      q ∈ l.foldr (sortInsert fun a b => le a.shortName b.shortName) [] → q ∈ l := by
    intro l
    induction l with
    | nil => simp
    | cons b bs ih =>
      intro hq
      simp only [List.foldr_cons] at hq
      rcases (mem_sortInsert _ _ _ _).mp hq with h1 | h2
      · simp [h1]
      · exact List.mem_cons_of_mem b (ih h2)
  have hm := hmem _ h
  rw [List.mem_map] at hm
  obtain ⟨p, hp, hq⟩ := hm
  exact ⟨p, hp, hq.symm⟩

theorem mem_recentItemsOf (sorted : List SortedProject) (recentKeys : List String)
    (x : SortedProject) (h : x ∈ recentItemsOf sorted recentKeys) : x ∈ sorted := by
  simp only [recentItemsOf, List.mem_filterMap] at h
  obtain ⟨o, ho, hx⟩ := h
  rw [List.mem_map] at ho
  obtain ⟨name, hn, ho2⟩ := ho
  rw [← ho2] at hx
  exact List.mem_of_find?_eq_some hx

theorem recentItemsOf_eq_filterMap (sorted : List SortedProject) (recentKeys : List String) :
    recentItemsOf sorted recentKeys =
      recentKeys.filterMap fun name => sorted.find? fun p => p.packageName == name := by
  simp only [recentItemsOf, List.filterMap_map]
  rfl

theorem mem_buildItems (sorted recentItems : List SortedProject) (it : Item)
    (h : it ∈ buildItems sorted recentItems) (hsep : it.separator = false) :
    ∃ q, (q ∈ recentItems ∨ q ∈ sorted) ∧ it = mkItem q := by
  simp only [buildItems, List.mem_append] at h
  rcases h with h | h
  · split at h
    · rcases List.mem_cons.mp h with h1 | h2
      · rw [h1] at hsep; simp at hsep
      · rcases List.mem_append.mp h2 with h3 | h4
        · rw [List.mem_map] at h3
          obtain ⟨q, hq, hq2⟩ := h3
          exact ⟨q, Or.inl hq, hq2.symm⟩
        · rw [List.mem_singleton.mp h4] at hsep
          simp at hsep
    · simp at h
  · rw [List.mem_map] at h
    obtain ⟨q, hq, hq2⟩ := h
    exact ⟨q, Or.inr hq, hq2.symm⟩

/-- C9: every selectable (non-separator) item in the presentation list has
its description equal to the full package name of some input project and
its label equal to that project's short name; hence whenever the chooser
returns a selectable item of the list, pickProject returns a project drawn
from the input list. -/
theorem presentationItems_selectable_sound (le : String → String → Bool)
    (projects : List ProjectInfo) (recentKeys : List String) :
    (∀ it ∈ presentationItems le projects recentKeys, it.separator = false →
      ∃ p ∈ projects, it.description = some p.packageName ∧
        it.label = shortNameOf p.packageName) ∧
    (∀ choose : List Item → Option Item, ∀ it : Item,
      choose (presentationItems le projects recentKeys) = some it →
      it ∈ presentationItems le projects recentKeys → it.separator = false →
      ∃ p ∈ projects,
        (pickProject le projects recentKeys choose).1 =
          some ⟨p.packageName, shortNameOf p.packageName⟩) := by
  have main : ∀ it ∈ presentationItems le projects recentKeys, it.separator = false →
      ∃ p ∈ projects, it.description = some p.packageName ∧
        it.label = shortNameOf p.packageName := by
    intro it hit hsep
    simp only [presentationItems] at hit
    obtain ⟨q, hq, hq2⟩ := mem_buildItems _ _ it hit hsep
    have hq3 : q ∈ sortProjects le projects := by
      rcases hq with h | h
      · exact mem_recentItemsOf _ _ _ h
      · exact h
    obtain ⟨p, hp, hq4⟩ := mem_sortProjects le projects q hq3
    rw [hq2, hq4]
    exact ⟨p, hp, rfl, rfl⟩
  refine ⟨main, ?_⟩
  intro choose it hch hit hsep
  obtain ⟨p, hp, hdesc, hlab⟩ := main it hit hsep
  refine ⟨p, hp, ?_⟩
  simp only [pickProject, hch, hdesc, hlab, Option.getD_some]

/-- Witness for C9 with a concrete chooser picking the first selectable
item: the returned project is one of the two input projects. -/
theorem presentationItems_selectable_sound_witness :
    ∃ p ∈ exProjects,
      (pickProject exLe exProjects [] exChoose).1 =
        some ⟨p.packageName, shortNameOf p.packageName⟩ :=
  (presentationItems_selectable_sound exLe exProjects []).2 exChoose
    ⟨"core", some "@its-ui/core", false⟩ (by decide) (by decide) (by decide)

/-- C8: the presentation list is the bare sorted list when no history entry
resolves, and otherwise a Recent separator, the resolved history entries in
history order, an All-projects separator and the complete sorted list; the
resolved entries are exactly the history entries that resolve against the
sorted list, in history order; and with a three-entry history of which only
the middle entry resolves, the Recent section holds exactly that entry. -/
theorem presentationItems_structure (le : String → String → Bool)
    (projects : List ProjectInfo) (recentKeys : List String)
    (a b c : String) (pb : SortedProject) (sorted2 : List SortedProject)
    (ha : sorted2.find? (fun p => p.packageName == a) = none)
    (hb : sorted2.find? (fun p => p.packageName == b) = some pb)
    (hc : sorted2.find? (fun p => p.packageName == c) = none) :
    (recentItemsOf (sortProjects le projects) recentKeys = [] →
      presentationItems le projects recentKeys =
        (sortProjects le projects).map mkItem) ∧
    (recentItemsOf (sortProjects le projects) recentKeys ≠ [] →
      presentationItems le projects recentKeys =
        ⟨"Recent", none, true⟩ ::
          (recentItemsOf (sortProjects le projects) recentKeys).map mkItem ++
          ⟨"All projects", none, true⟩ :: (sortProjects le projects).map mkItem) ∧
    (recentItemsOf (sortProjects le projects) recentKeys =
      recentKeys.filterMap fun name =>
        (sortProjects le projects).find? fun p => p.packageName == name) ∧
    recentItemsOf sorted2 [a, b, c] = [pb] := by
  refine ⟨?_, ?_, recentItemsOf_eq_filterMap _ _, ?_⟩
  · intro h
    simp only [presentationItems, buildItems, h, List.length_nil, List.nil_append]
    rw [if_neg (by simp)]
    simp
  · intro h
    have hpos : 0 < (recentItemsOf (sortProjects le projects) recentKeys).length :=
      List.length_pos.mpr h
    simp only [presentationItems, buildItems]
    rw [if_pos (by simpa using hpos)]
    simp
  · rw [recentItemsOf_eq_filterMap]
    simp only [List.filterMap_cons, ha, hb, hc]
    rfl

/-- Witness for C8 on concrete data: a three-entry history of which only the
middle name resolves yields a Recent list of exactly the resolved project,
and the empty history yields the bare sorted list. -/
theorem presentationItems_structure_witness :
    recentItemsOf (sortProjects exLe exProjects)
      ["@its-ui/gone1", "@its-ui/core", "@its-ui/gone2"] =
      [⟨"@its-ui/core", "core"⟩] ∧
    presentationItems exLe exProjects [] = (sortProjects exLe exProjects).map mkItem := by
  have h := presentationItems_structure exLe exProjects []
    "@its-ui/gone1" "@its-ui/core" "@its-ui/gone2" ⟨"@its-ui/core", "core"⟩
    (sortProjects exLe exProjects) (by decide) (by decide) (by decide)
  exact ⟨h.2.2.2, h.1 (by decide)⟩

/-- C4: when the chooser cancels, pickProject returns the cancellation
result and the stored history unchanged — the update step never runs. -/
theorem pickProject_cancel_preserves_history (le : String → String → Bool)
    (projects : List ProjectInfo) (recentKeys : List String)
    (choose : List Item → Option Item)
    (h : choose (presentationItems le projects recentKeys) = none) :
    pickProject le projects recentKeys choose = (none, recentKeys) := by
  simp only [pickProject, h]

/-- Witness for C4 with a chooser that always cancels. -/
theorem pickProject_cancel_preserves_history_witness :
    pickProject exLe exProjects ["@its-ui/core"] (fun _ => none) =
      (none, ["@its-ui/core"]) :=
  pickProject_cancel_preserves_history exLe exProjects ["@its-ui/core"]
    (fun _ => none) rfl

/-- C3: on a successful selection the stored history becomes the chosen
full name followed by the prior entries other than it, truncated to three;
in particular picking X against prior history [X, Y] yields [X, Y], and
picking a fresh Z against [A, B, C] yields [Z, A, B]. -/
theorem pickProject_updates_history (le : String → String → Bool)
    (projects : List ProjectInfo) (recentKeys : List String)
    (choose : List Item → Option Item) (it : Item)
    (hch : choose (presentationItems le projects recentKeys) = some it)
    (X Y Z A B C : String) (hXY : Y ≠ X) (hZA : A ≠ Z) (hZB : B ≠ Z) (hZC : C ≠ Z) :
    (pickProject le projects recentKeys choose).2 =
      (Option.getD it.description "" ::
        recentKeys.filter fun n => n != Option.getD it.description "").take 3 ∧
    updatedRecent X [X, Y] = [X, Y] ∧
    updatedRecent Z [A, B, C] = [Z, A, B] := by
  refine ⟨?_, ?_, ?_⟩
  · simp only [pickProject, hch, updatedRecent]
  · simp [updatedRecent, List.filter_cons, hXY]
  · simp [updatedRecent, List.filter_cons, hZA, hZB, hZC]

/-- Witness for C3: picking the widgets project with prior history
[widgets, core] keeps [widgets, core]; the [X, Y] instance at x, y. -/
theorem pickProject_updates_history_witness :
    (pickProject exLe exProjects ["@its-ui/widgets", "@its-ui/core"] exChoose).2 =
      ["@its-ui/widgets", "@its-ui/core"] ∧
    updatedRecent "x" ["x", "y"] = ["x", "y"] := by
  have h := pickProject_updates_history exLe exProjects
    ["@its-ui/widgets", "@its-ui/core"] exChoose
    ⟨"widgets", some "@its-ui/widgets", false⟩ (by decide)
    "x" "y" "z" "a" "b" "c" (by decide) (by decide) (by decide) (by decide)
  refine ⟨?_, h.2.1⟩
  rw [h.1]
  decide

/-- C10: the history update removes every prior occurrence of the chosen
name — even a history already holding duplicates of it — so the chosen
name occurs exactly once in the updated history, at its front. -/
theorem updatedRecent_removes_all_occurrences (packageName : String)
    (recentKeys : List String) :
    (updatedRecent packageName recentKeys).head? = some packageName ∧
    (updatedRecent packageName recentKeys).count packageName = 1 := by
  have h3 : (3 : Nat) = 2 + 1 := rfl
  constructor
  · simp only [updatedRecent, h3, List.take_succ_cons, List.head?_cons]
  · simp only [updatedRecent, h3, List.take_succ_cons, List.count_cons_self]
    have hnot : packageName ∉
        (recentKeys.filter fun n => n != packageName).take 2 := by
      intro hmem
      have h2 := List.mem_filter.mp (List.mem_of_mem_take hmem)
      simp at h2
    rw [List.count_eq_zero.mpr hnot]
